import Mathlib

/-!
Verification of the numeric/text core of the thought-clusters repository
(`app.js`): the k-nearest-neighbor construction and force-directed 2D
projection (`umap`), the K-means++ clustering engine (`kmeans`), the
Euclidean distance helper (`euclideanDistance`), and the frequency-based
cluster labeler (`labelClusters`).

Modelling conventions
- JavaScript numbers are modelled as exact real numbers (`ℝ`); `Math.sqrt`
  is `Real.sqrt`, `Math.log` is `Real.log`.  Under this exact-arithmetic
  idealization the IEEE-754 artifacts NaN and Infinity do not exist; where
  the source would produce a thrown `TypeError` (reading a property of
  `undefined`) the model returns `Option.none`.
- `Math.random()` draws are modelled as injectable sources: a stream of
  reals in `[0, 1)` for the K-means++ weighted draws, a position source
  for layout initialization, and an index source (taken `% n`, the range
  of `Math.floor(Math.random() * n)`) for repulsion sampling.
- Cluster labels and texts use Lean `String`; the JS object used as a
  token-count table is modelled as an insertion-ordered association list,
  and `Object.entries` enumeration order (array-index keys first in
  ascending numeric order, then remaining keys in insertion order) is
  modelled explicitly.
-/

namespace ThoughtClusters

noncomputable section

/-- The inner loop of `euclideanDistance` / the distance matrix in `umap`
(`app.js` lines 514-516, 620-621): sum of squared coordinate differences
over index range `0..dim-1`.  Out-of-range reads are modelled as `0`;
the theorems below only apply it within the vectors' length, matching
the source, where `dim` is the (uniform) embedding dimension. -/
def sumSqTo (dim : ℕ) (a b : List ℝ) : ℝ :=
  ((List.range dim).map (fun d => (a.getD d 0 - b.getD d 0) ^ 2)).sum

/-- `euclideanDistance` (`app.js` lines 619-623): loops over `a.length`
indices, so a longer second vector is silently truncated. -/
def euclideanDistance (a b : List ℝ) : ℝ :=
  Real.sqrt (sumSqTo a.length a b)

/-- The pairwise distance matrix built at the top of `umap`
(`app.js` lines 508-519): `0` on the diagonal, Euclidean distance
(over the first embedding's dimension `dim`) off it. -/
def distMatrix (emb : List (List ℝ)) (i j : ℕ) : ℝ :=
  if i = j then 0
  else Real.sqrt (sumSqTo (emb.headD []).length (emb.getD i []) (emb.getD j []))

/-- Comparator for the kNN sort (`app.js` line 524, `(a, b) => a.d - b.d`):
ascending by stored distance. -/
def knnLe (a b : ℕ × ℝ) : Bool := decide (a.2 ≤ b.2)

/-- Sample `i`'s neighbor list (`app.js` lines 521-526): pair every index
with its distance to `i`, drop `i` itself, sort ascending by distance,
keep the first `min nNeighbors (n - 1)` entries. -/
def knnRow (emb : List (List ℝ)) (nNeighbors i : ℕ) : List (ℕ × ℝ) :=
  (((((List.range emb.length).map (fun j => (j, distMatrix emb i j))).filter
      (fun p => p.1 != i)).mergeSort knnLe).take (min nNeighbors (emb.length - 1)))

/-- All neighbor lists (`app.js` lines 521-526). -/
def knnRows (emb : List (List ℝ)) (nNeighbors : ℕ) : List (List (ℕ × ℝ)) :=
  (List.range emb.length).map (knnRow emb nNeighbors)

/-- The 2D distance with the positive floor used by both force computations
(`app.js` lines 536 and 550): `Math.sqrt(dx*dx + dy*dy) + 0.001`. -/
def dist2D (p q : ℝ × ℝ) : ℝ :=
  Real.sqrt ((q.1 - p.1) ^ 2 + (q.2 - p.2) ^ 2) + 0.001

/-- Attraction accumulation for sample `i` (`app.js` lines 532-541): for each
neighbor edge `i → j`, add a force of magnitude `0.1 * ln(dist + 1)` pointing
from `i` toward `j`, where `dist` carries the `0.001` floor. -/
def attractionAt (knnI : List (ℕ × ℝ)) (ps : List (ℝ × ℝ)) (pi : ℝ × ℝ) : ℝ × ℝ :=
  knnI.foldl (fun f nb =>
    let pj := ps.getD nb.1 (0, 0)
    let dx := pj.1 - pi.1
    let dy := pj.2 - pi.2
    let dist := dist2D pi pj
    let attraction := 0.1 * Real.log (dist + 1)
    (f.1 + attraction * dx / dist, f.2 + attraction * dy / dist)) (0, 0)

/-- Repulsion accumulation for sample `i` (`app.js` lines 543-557): sample
`min 30 n` random indices (each `Math.floor(Math.random()*n)`, modelled as an
injected natural taken `% n`), skip `i` itself, and within cutoff distance `2`
add a force of magnitude `-0.5 / dist²` pointing away from the sampled point. -/
def repulsionAt (n : ℕ) (sample : ℕ → ℕ) (ps : List (ℝ × ℝ)) (i : ℕ)
    (pi : ℝ × ℝ) : ℝ × ℝ :=
  (List.range (min 30 n)).foldl (fun f s =>
    let j := sample s % n
    if j = i then f
    else
      let pj := ps.getD j (0, 0)
      let dx := pj.1 - pi.1
      let dy := pj.2 - pi.2
      let dist := dist2D pi pj
      if dist < 2 then
        let repulsion := -0.5 / (dist * dist)
        (f.1 + repulsion * dx / dist, f.2 + repulsion * dy / dist)
      else f) (0, 0)

/-- One pass of the force simulation (`app.js` lines 529-563): accumulate
attraction and repulsion forces against a frozen snapshot of the positions,
then apply them scaled by the decay factor `1 - iter/iterations`. -/
def umapStep (knn : List (List (ℕ × ℝ))) (n : ℕ) (sample : ℕ → ℕ → ℕ → ℕ)
    (iterations iter : ℕ) (ps : List (ℝ × ℝ)) : List (ℝ × ℝ) :=
  let forces := (List.range n).map (fun i =>
    let pi := ps.getD i (0, 0)
    let fa := attractionAt (knn.getD i []) ps pi
    let fr := repulsionAt n (sample iter i) ps i pi
    (fa.1 + fr.1, fa.2 + fr.2))
  let decay := 1 - (iter : ℝ) / (iterations : ℝ)
  (List.range n).map (fun i =>
    let p := ps.getD i (0, 0)
    let f := forces.getD i (0, 0)
    (p.1 + f.1 * decay, p.2 + f.2 * decay))

/-- Run `fuel` passes starting at pass index `iter` (`app.js` line 529). -/
def umapIterate (step : ℕ → List (ℝ × ℝ) → List (ℝ × ℝ)) :
    ℕ → ℕ → List (ℝ × ℝ) → List (ℝ × ℝ)
  | _, 0, ps => ps
  | iter, fuel + 1, ps => umapIterate step (iter + 1) fuel (step iter ps)

/-- `umap` (`app.js` lines 502-567).  On an empty embedding list the source
reads `embeddings[0].length` and throws a `TypeError`; this is modelled as
`none`.  Otherwise: random initial positions (injected via `randPos`), the
kNN index, and 200 force passes with repulsion sampling injected via
`randIdx` (pass, sample, draw). -/
def umap (randPos : ℕ → ℝ × ℝ) (randIdx : ℕ → ℕ → ℕ → ℕ)
    (embeddings : List (List ℝ)) (nNeighbors : ℕ) : Option (List (ℝ × ℝ)) :=
  match embeddings with
  | [] => none
  | _ :: _ =>
    let n := embeddings.length
    let knn := knnRows embeddings nNeighbors
    let init := (List.range n).map randPos
    some (umapIterate (fun iter ps => umapStep knn n randIdx 200 iter ps) 0 200 init)

/-- The nearest-centroid scan of the Assign step (`app.js` lines 595-602):
`minDist` starts at `Infinity` (modelled `none`), `minIdx` at `0`, and a
strictly smaller distance replaces the running minimum — so the first index
attaining the minimum wins. Arguments: remaining distances, current index,
running minimum, running best index. -/
def argminFirstAux : List ℝ → ℕ → Option ℝ → ℕ → ℕ
  | [], _, _, best => best
  | v :: vs, cur, none, _ => argminFirstAux vs (cur + 1) (some v) cur
  | v :: vs, cur, some m, best =>
    if v < m then argminFirstAux vs (cur + 1) (some v) cur
    else argminFirstAux vs (cur + 1) (some m) best

/-- Index of the first minimum of a distance list (`app.js` lines 595-602). -/
def argminFirst (l : List ℝ) : ℕ := argminFirstAux l 0 none 0

/-- The Assign step for one sample (`app.js` lines 595-602): slot of the
nearest centroid, ties to the lowest slot index. -/
def assign (centroids : List (List ℝ)) (emb : List ℝ) : ℕ :=
  argminFirst (centroids.map (fun c => euclideanDistance emb c))

/-- The embeddings currently assigned to slot `c`
(`app.js` line 608, `embeddings.filter((_, i) => labels[i] === c)`). -/
def membersOf (emb : List (List ℝ)) (labels : List ℕ) (c : ℕ) : List (List ℝ) :=
  ((emb.zip labels).filter (fun p => p.2 == c)).map (fun p => p.1)

/-- The Update step (`app.js` lines 607-613): each of the `k` centroids is
recomputed as the coordinate-wise mean of its members over dimensions
`0..dim-1`; a slot with no members is left unchanged (`continue`). The source
mutates the length-`k` centroid array in place; the callers below always pass
`centroids.length = k`. -/
def updateCentroids (emb : List (List ℝ)) (k : ℕ) (labels : List ℕ)
    (centroids : List (List ℝ)) : List (List ℝ) :=
  let dim := (emb.headD []).length
  (List.range k).map (fun c =>
    let pts := membersOf emb labels c
    if pts = [] then centroids.getD c []
    else (List.range dim).map (fun d =>
      (pts.map (fun p => p.getD d 0)).sum / (pts.length : ℝ)))

/-- The assign/update iteration (`app.js` lines 593-614), with `fuel` the
remaining passes out of `maxIterations`.  Result: final labels, final
centroids, whether the loop exited through the convergence `break`
(`newLabels` equal to the previous labels), and the number of Assign passes
executed. -/
def kmeansLoop (emb : List (List ℝ)) (k : ℕ) :
    List (List ℝ) → List ℕ → ℕ → List ℕ × List (List ℝ) × Bool × ℕ
  | cs, ls, 0 => (ls, cs, false, 0)
  | cs, ls, fuel + 1 =>
    let newLabels := emb.map (assign cs)
    if newLabels = ls then (ls, cs, true, 1)
    else
      let r := kmeansLoop emb k (updateCentroids emb k newLabels cs) newLabels fuel
      (r.1, r.2.1, r.2.2.1, r.2.2.2 + 1)

/-- `Math.min(...centroids.map(c => euclideanDistance(emb, c)))`
(`app.js` line 583): minimum distance to any already-chosen centroid.  The
empty case (`Math.min()` = `Infinity`) is never reached, as seeding always
starts with one centroid; it is modelled as `0`. -/
def minDistToCentroids (e : List ℝ) (centroids : List (List ℝ)) : ℝ :=
  match centroids.map (fun c => euclideanDistance e c) with
  | [] => 0
  | d :: ds => ds.foldl min d

/-- The seeding weights (`app.js` lines 581-584): `0` for already-chosen
indices, otherwise the distance to the nearest chosen centroid. -/
def seedDists (emb : List (List ℝ)) (used : List ℕ)
    (centroids : List (List ℝ)) : List ℝ :=
  (List.range emb.length).map (fun i =>
    if i ∈ used then 0 else minDistToCentroids (emb.getD i []) centroids)

/-- The weighted-draw scan (`app.js` lines 587-590): subtract each weight from
`r` in turn and pick the first index where `r ≤ 0`; if the scan falls through
(impossible for `r ≤ total` with nonnegative weights) nothing is picked. -/
def seedSelect : List ℝ → ℝ → ℕ → Option ℕ
  | [], _, _ => none
  | d :: ds, r, idx => if r - d ≤ 0 then some idx else seedSelect ds (r - d) (idx + 1)

/-- The K-means++ seeding loop (`app.js` lines 580-591): while fewer than `k`
centroids are chosen, draw the next one with probability proportional to its
seeding weight.  `fuel` is the number of draws still needed (`k - 1` at the
start); the random stream `randW` supplies one `[0,1)` draw per pass.  A
fallen-through scan (unreachable under the `[0,1)` bound, proved below) is
modelled as `none`; in the source the `while` loop would retry with a fresh
draw. -/
def seedLoop (randW : ℕ → ℝ) (emb : List (List ℝ)) :
    ℕ → List (List ℝ) → List ℕ → ℕ → Option (List (List ℝ))
  | _, cs, _, 0 => some cs
  | t, cs, used, fuel + 1 =>
    let dists := seedDists emb used cs
    let r := randW t * dists.sum
    match seedSelect dists r 0 with
    | none => none
    | some i => seedLoop randW emb (t + 1) (cs ++ [emb.getD i []]) (used ++ [i]) fuel

/-- K-means++ initialization (`app.js` lines 573-591): a uniformly random
first centroid (`randI % n` models `Math.floor(Math.random()*n)`), then
`k - 1` weighted draws.  On an empty embedding set the source spreads
`embeddings[idx]` (undefined) and throws; modelled as `none`. -/
def kmeansSeed (randI : ℕ) (randW : ℕ → ℝ) (emb : List (List ℝ)) (k : ℕ) :
    Option (List (List ℝ)) :=
  match emb with
  | [] => none
  | _ :: _ =>
    let i0 := randI % emb.length
    seedLoop randW emb 0 [emb.getD i0 []] [i0] (k - 1)

/-- `kmeans` (`app.js` lines 569-617): seed `k` centroids, start from the
all-zero label vector, and run at most `maxIterations` assign/update passes. -/
def kmeans (randI : ℕ) (randW : ℕ → ℝ) (emb : List (List ℝ)) (k : ℕ)
    (maxIterations : ℕ) : Option (List ℕ) :=
  match kmeansSeed randI randW emb k with
  | none => none
  | some cs => some (kmeansLoop emb k cs (List.replicate emb.length 0) maxIterations).1

/-- Invariant of the nearest-centroid scan: after processing the prefix
`processed`, `best` is the first index attaining the running minimum `m`. -/
def AuxInv (processed : List ℝ) (m : ℝ) (best : ℕ) : Prop :=
  best < processed.length ∧ processed.getD best 0 = m ∧
  (∀ j < processed.length, m ≤ processed.getD j 0) ∧
  ∀ j < best, m < processed.getD j 0

/-- The Assign step's contract, phrased from the claim: the chosen slot is the
nearest centroid under the Euclidean distance, with ties broken by the lowest
slot index. -/
def NearestSlot (centroids : List (List ℝ)) (e : List ℝ) (c : ℕ) : Prop :=
  c < centroids.length ∧
  (∀ j < centroids.length,
    euclideanDistance e (centroids.getD c []) ≤ euclideanDistance e (centroids.getD j [])) ∧
  ∀ j < c, euclideanDistance e (centroids.getD c []) < euclideanDistance e (centroids.getD j [])

end

/-- The stopword set of `labelClusters` (`app.js` line 634), transcribed
verbatim (the source lists `need` and `want` twice; a `Set` ignores the
duplicates, as does list membership). -/
def stopwords : List String := [
  "the", "a", "an", "is", "are", "was", "were", "be", "been", "being",
  "have", "has", "had", "do", "does", "did", "will", "would", "could", "should",
  "may", "might", "must", "shall", "can", "need", "to", "of", "in", "for",
  "on", "with", "at", "by", "from", "as", "into", "through", "during", "before",
  "after", "above", "below", "between", "under", "again", "further", "then", "once", "here",
  "there", "when", "where", "why", "how", "all", "each", "few", "more", "most",
  "other", "some", "such", "no", "nor", "not", "only", "own", "same", "so",
  "than", "too", "very", "just", "and", "but", "if", "or", "because", "until",
  "while", "this", "that", "these", "those", "what", "which", "who", "whom", "whose",
  "it", "its", "i", "me", "my", "myself", "we", "our", "ours", "you",
  "your", "yours", "he", "him", "his", "she", "her", "hers", "they", "them",
  "their", "am", "about", "get", "like", "make", "know", "think", "want", "see",
  "look", "use", "find", "give", "tell", "try", "help", "please", "thank", "thanks",
  "hi", "hello", "hey", "yes", "yeah", "ok", "okay", "sure", "right", "using",
  "need", "want", "something", "anything", "everything"]

/-- The whitespace class of the `\s` regex escapes, restricted to its ASCII
members (space, tab, line feed, carriage return, vertical tab, form feed).
Non-ASCII `\s` members behave identically here because every character the
replacement step keeps is ASCII; anything else becomes a plain space before
the split. -/
def isSpaceJS (c : Char) : Bool :=
  c = ' ' || c = '\t' || c = '\n' || c = '\r' || c = '\x0b' || c = '\x0c'

/-- One character of `.replace(/[^a-z0-9\s]/g, ' ')` (`app.js` line 641):
anything outside lowercase ASCII letters, digits and whitespace becomes a
space. -/
def cleanChar (c : Char) : Char :=
  if ('a' ≤ c && c ≤ 'z') || ('0' ≤ c && c ≤ '9') || isSpaceJS c then c else ' '

/-- The token filter (`app.js` line 642): keep tokens longer than two
characters that are not stopwords. -/
def keepToken (w : String) : Bool := w.length > 2 && !(stopwords.contains w)

/-- Character-level whitespace split (the `.split(/\s+/)` of `app.js`
line 641, done per separator character; the extra empty tokens produced at
runs of whitespace are all removed by the length filter). -/
def splitChars : List Char → List Char → List (List Char)
  | [], cur => [cur.reverse]
  | c :: cs, cur =>
    if isSpaceJS c then cur.reverse :: splitChars cs []
    else splitChars cs (c :: cur)

/-- Tokenization of one text (`app.js` lines 641-642): lower-case, replace
characters outside `[a-z0-9\s]` by spaces, split on whitespace, filter. -/
def tokenize (text : String) : List String :=
  ((splitChars ((text.data.map Char.toLower).map cleanChar) []).map
    String.mk).filter keepToken

/-- `words[word] = (words[word] || 0) + 1` (`app.js` line 643) on the
insertion-ordered association-list model of a JS object: increment the first
matching key, or append a fresh key with count 1. -/
def bump : List (String × ℕ) → String → List (String × ℕ)
  | [], t => [(t, 1)]
  | (s, c) :: rest, t =>
    if s = t then (s, c + 1) :: rest else (s, c) :: bump rest t

/-- The token-count table of one cluster (`app.js` lines 638-644): all texts
tokenized in order, folded into the count table. -/
def countWords (texts : List String) : List (String × ℕ) :=
  ((texts.map tokenize).flatten).foldl bump []

/-- Decimal parser for key strings (all-digit strings only). -/
def parseDigits : List Char → ℕ → Option ℕ
  | [], acc => some acc
  | c :: cs, acc =>
    if '0' ≤ c && c ≤ '9' then parseDigits cs (acc * 10 + (c.toNat - '0'.toNat))
    else none

/-- Numeric value of an all-digit key string, `none` otherwise. -/
def toNatJS (s : String) : Option ℕ :=
  match s.data with
  | [] => none
  | _ :: _ => parseDigits s.data 0

/-- Whether a JS object key is an array index: the canonical decimal string
of a natural number below `2^32 - 1`.  Such keys are enumerated first, in
ascending numeric order, by `Object.entries`. -/
def isArrayIndexKey (s : String) : Bool :=
  match toNatJS s with
  | some n => Nat.repr n == s && n < 4294967295
  | none => false

/-- Ascending insertion by numeric key value, for ordering array-index keys. -/
def insertAscByKey (x : String × ℕ) : List (String × ℕ) → List (String × ℕ)
  | [] => [x]
  | y :: ys =>
    if (toNatJS x.1).getD 0 ≤ (toNatJS y.1).getD 0 then x :: y :: ys
    else y :: insertAscByKey x ys

/-- `Object.entries(words)` enumeration order: array-index keys first in
ascending numeric order (the table's keys are distinct, so any ascending
sort gives the JS enumeration), then the remaining keys in insertion
order. -/
def entriesOrder (l : List (String × ℕ)) : List (String × ℕ) :=
  (l.filter (fun p => isArrayIndexKey p.1)).foldr insertAscByKey [] ++
    l.filter (fun p => !isArrayIndexKey p.1)

/-- Stable insertion for the descending count sort: an element goes in front
of the first entry whose count is `≤` its own, so earlier entries win ties —
the behavior of the stable JS `.sort((a, b) => b[1] - a[1])`
(`app.js` line 646). -/
def insertDescByCount (x : String × ℕ) : List (String × ℕ) → List (String × ℕ)
  | [] => [x]
  | y :: ys => if y.2 ≤ x.2 then x :: y :: ys else y :: insertDescByCount x ys

/-- Stable descending-by-count sort (`app.js` line 646). -/
def sortByCountDesc (l : List (String × ℕ)) : List (String × ℕ) :=
  l.foldr insertDescByCount []

/-- `w.charAt(0).toUpperCase() + w.slice(1)` (`app.js` lines 649-651). -/
def titleCase (s : String) : String :=
  match s.data with
  | [] => ""
  | c :: cs => String.mk (c.toUpper :: cs)

/-- The label of one cluster group (`app.js` lines 636-654): top three tokens
by descending count over the `Object.entries` enumeration order; two or more
survivors give the top two title-cased and joined by `" & "`, exactly one
gives it title-cased, zero gives the positional fallback `Topic slot+1`. -/
def labelFor (slot : ℕ) (texts : List String) : String :=
  let sorted := ((sortByCountDesc (entriesOrder (countWords texts))).take 3).map
    (fun p => p.1)
  if sorted.length ≥ 2 then
    String.intercalate " & " ((sorted.take 2).map titleCase)
  else if sorted.length = 1 then
    titleCase (sorted.getD 0 "")
  else
    "Topic " ++ Nat.repr (slot + 1)

/-- The texts grouped under slot `c` (`app.js` lines 626-631): texts whose
sample index carries label `c`, in index order. -/
def textsOf (msgs : List String) (labels : List ℕ) (c : ℕ) : List String :=
  ((msgs.zip labels).filter (fun p => p.2 == c)).map (fun p => p.1)

/-- First-occurrence deduplication (keeps encounter order). -/
def firstSeenNat (ls : List ℕ) : List ℕ :=
  ls.foldl (fun acc t => if t ∈ acc then acc else acc ++ [t]) []

/-- Ascending insertion sort on naturals. -/
def insertAscNat (x : ℕ) : List ℕ → List ℕ
  | [] => [x]
  | y :: ys => if x ≤ y then x :: y :: ys else y :: insertAscNat x ys

/-- Ascending sort on naturals. -/
def sortAscNat (l : List ℕ) : List ℕ := l.foldr insertAscNat []

/-- The slots that receive a label: the distinct labels occurring among the
messages (`clusterTexts`'s keys), enumerated as JS enumerates numeric object
keys — ascending. -/
def slotsOf (msgs : List String) (labels : List ℕ) : List ℕ :=
  sortAscNat (firstSeenNat ((msgs.zip labels).map (fun p => p.2)))

/-- `labelClusters` (`app.js` lines 625-658) with messages reduced to their
`.text` field: a label per occupied slot, keyed by slot. -/
def labelClusters (msgs : List String) (labels : List ℕ) : List (ℕ × String) :=
  (slotsOf msgs labels).map (fun c => (c, labelFor c (textsOf msgs labels c)))

/-- Lookup in the slot-keyed label map. -/
def lookupSlot (c : ℕ) : List (ℕ × String) → Option String
  | [] => none
  | p :: rest => if p.1 = c then some p.2 else lookupSlot c rest

/-- First-occurrence deduplication of tokens (encounter order), used by the
claim-side formulations. -/
def firstSeen (ts : List String) : List String :=
  ts.foldl (fun acc t => if t ∈ acc then acc else acc ++ [t]) []

/-- Claim-side count table: the distinct surviving tokens in
first-encountered order, each paired with its frequency in the group. -/
def specCounts (ts : List String) : List (String × ℕ) :=
  (firstSeen ts).map (fun t => (t, ts.count t))

/-- The label rule as Claim C6 words it: token counts in first-encountered
order, most-frequent-first with ties broken by that order (the stable
descending sort), top two joined by `" & "` / one title-cased / positional
fallback. -/
def labelForClaim (slot : ℕ) (texts : List String) : String :=
  let toks := (texts.map tokenize).flatten
  let sorted := ((sortByCountDesc (specCounts toks)).take 3).map (fun p => p.1)
  if sorted.length ≥ 2 then
    String.intercalate " & " ((sorted.take 2).map titleCase)
  else if sorted.length = 1 then
    titleCase (sorted.getD 0 "")
  else
    "Topic " ++ Nat.repr (slot + 1)

/-- The label rule of Claim C6 amended only in its tie order: frequency ties
are broken by the count table's `Object.entries` enumeration order
(canonical-integer tokens first, ascending, then first-encountered order)
rather than by first-encountered order alone. -/
def labelForAmended (slot : ℕ) (texts : List String) : String :=
  let toks := (texts.map tokenize).flatten
  let sorted := ((sortByCountDesc (entriesOrder (specCounts toks))).take 3).map
    (fun p => p.1)
  if sorted.length ≥ 2 then
    String.intercalate " & " ((sorted.take 2).map titleCase)
  else if sorted.length = 1 then
    titleCase (sorted.getD 0 "")
  else
    "Topic " ++ Nat.repr (slot + 1)

/-- The count stored under key `t` in the table model, `0` when the key is
absent — the value `words[t] || 0` reads. -/
def valIn (t : String) : List (String × ℕ) → ℕ
  | [] => 0
  | (s, c) :: rest => if s = t then c else valIn t rest

lemma knnLe_trans (a b c : ℕ × ℝ) (hab : knnLe a b = true) (hbc : knnLe b c = true) :
    knnLe a c = true := by
  simp only [knnLe, decide_eq_true_eq] at *
  exact le_trans hab hbc

lemma knnLe_total (a b : ℕ × ℝ) : (knnLe a b || knnLe b a) = true := by
  simp only [knnLe, Bool.or_eq_true, decide_eq_true_eq]
  exact le_total _ _

lemma filter_ne_range_length {n i : ℕ} (hi : i < n) :
    ((List.range n).filter (fun j => j != i)).length = n - 1 := by
  have hnd : (List.range n).Nodup := List.nodup_range n
  have := hnd.erase_eq_filter i
  rw [← this, List.length_erase_of_mem (List.mem_range.mpr hi), List.length_range]

/-- The unsorted candidate list for sample `i` has exactly `n - 1` entries. -/
lemma knn_candidates_length (emb : List (List ℝ)) (i : ℕ) (hi : i < emb.length) :
    ((((List.range emb.length).map (fun j => (j, distMatrix emb i j))).filter
      (fun p => p.1 != i))).length = emb.length - 1 := by
  rw [List.filter_map, List.length_map]
  have : ((fun p : ℕ × ℝ => p.1 != i) ∘ fun j => (j, distMatrix emb i j)) =
      (fun j => j != i) := rfl
  rw [this, filter_ne_range_length hi]

/-- Claim C1: for every embedding set of size `N ≥ 1` and requested neighbor
count `k ≥ 1`, the neighbor list computed for each sample `i < N` has exactly
`min k (N - 1)` entries, is sorted by non-decreasing stored distance to `i`,
and never contains `i` itself. -/
theorem knnRow_spec (emb : List (List ℝ)) (k i : ℕ)
    (hi : i < emb.length) (_hk : 1 ≤ k) :
    (knnRow emb k i).length = min k (emb.length - 1) ∧
    List.Pairwise (fun a b : ℕ × ℝ => a.2 ≤ b.2) (knnRow emb k i) ∧
    ∀ p ∈ knnRow emb k i, p.1 ≠ i := by
  refine ⟨?_, ?_, ?_⟩
  · unfold knnRow
    rw [List.length_take, List.length_mergeSort, knn_candidates_length emb i hi]
    omega
  · have hsorted := List.sorted_mergeSort knnLe_trans knnLe_total
      ((((List.range emb.length).map (fun j => (j, distMatrix emb i j))).filter
        (fun p => p.1 != i)))
    have htake := List.Pairwise.sublist
      (List.take_sublist (min k (emb.length - 1))
        (((((List.range emb.length).map (fun j => (j, distMatrix emb i j))).filter
          (fun p => p.1 != i))).mergeSort knnLe)) hsorted
    refine htake.imp ?_
    intro a b hab
    simpa [knnLe] using hab
  · intro p hp
    unfold knnRow at hp
    have hp₁ := List.mem_of_mem_take hp
    have hp₂ := (List.mergeSort_perm _ knnLe).mem_iff.mp hp₁
    have := (List.mem_filter.mp hp₂).2
    simpa using this

lemma auxInv_step (P : List ℝ) (m : ℝ) (best : ℕ) (v : ℝ) (h : AuxInv P m best) :
    AuxInv (P ++ [v]) (if v < m then v else m) (if v < m then P.length else best) := by
  obtain ⟨hb, hval, hmin, hstrict⟩ := h
  by_cases hv : v < m
  · simp only [if_pos hv]
    refine ⟨by simp, ?_, ?_, ?_⟩
    · rw [List.getD_append_right _ _ _ _ (le_refl _)]; simp
    · intro j hj
      rw [List.length_append, List.length_singleton] at hj
      rcases lt_or_ge j P.length with hjP | hjP
      · rw [List.getD_append _ _ _ _ hjP]
        exact le_of_lt (lt_of_lt_of_le hv (hmin j hjP))
      · have hje : j = P.length := by omega
        subst hje
        rw [List.getD_append_right _ _ _ _ (le_refl _)]; simp
    · intro j hj
      rw [List.getD_append _ _ _ _ hj]
      exact lt_of_lt_of_le hv (hmin j hj)
  · simp only [if_neg hv]
    have hm : m ≤ v := not_lt.mp hv
    refine ⟨by simp; omega, ?_, ?_, ?_⟩
    · rw [List.getD_append _ _ _ _ hb]; exact hval
    · intro j hj
      rw [List.length_append, List.length_singleton] at hj
      rcases lt_or_ge j P.length with hjP | hjP
      · rw [List.getD_append _ _ _ _ hjP]; exact hmin j hjP
      · have hje : j = P.length := by omega
        subst hje
        rw [List.getD_append_right _ _ _ _ (le_refl _)]; simpa using hm
    · intro j hj
      rw [List.getD_append _ _ _ _ (lt_trans hj hb)]
      exact hstrict j hj

lemma auxInv_main (vs : List ℝ) : ∀ (P : List ℝ) (m : ℝ) (best : ℕ),
    AuxInv P m best →
    ∃ m', AuxInv (P ++ vs) m' (argminFirstAux vs P.length (some m) best) := by
  induction vs with
  | nil => intro P m best h; exact ⟨m, by simpa using h⟩
  | cons v vs ih =>
    intro P m best h
    have hstep := auxInv_step P m best v h
    rw [argminFirstAux]
    by_cases hv : v < m
    · rw [if_pos hv]
      have h' : AuxInv (P ++ [v]) v P.length := by simpa [if_pos hv] using hstep
      have hrec := ih (P ++ [v]) v P.length h'
      rw [List.append_assoc] at hrec
      simpa using hrec
    · rw [if_neg hv]
      have h' : AuxInv (P ++ [v]) m best := by simpa [if_neg hv] using hstep
      have hrec := ih (P ++ [v]) m best h'
      rw [List.append_assoc] at hrec
      simpa using hrec

lemma argminFirst_auxSpec (l : List ℝ) (hl : l ≠ []) :
    ∃ m, AuxInv l m (argminFirst l) := by
  match l, hl with
  | v :: vs, _ =>
    have h0 : AuxInv [v] v 0 := by
      refine ⟨by simp, by simp, ?_, by omega⟩
      intro j hj
      have hj0 : j = 0 := by simpa using hj
      subst hj0; simp
    have hm := auxInv_main vs [v] v 0 h0
    simpa [argminFirst, argminFirstAux] using hm

lemma argminFirst_lt (l : List ℝ) (hl : l ≠ []) : argminFirst l < l.length :=
  (argminFirst_auxSpec l hl).choose_spec.1

lemma argminFirst_min (l : List ℝ) (hl : l ≠ []) :
    ∀ j < l.length, l.getD (argminFirst l) 0 ≤ l.getD j 0 := by
  obtain ⟨m, _, hval, hmin, _⟩ := argminFirst_auxSpec l hl
  intro j hj
  rw [hval]
  exact hmin j hj

lemma argminFirst_firstOfTies (l : List ℝ) (hl : l ≠ []) :
    ∀ j < argminFirst l, l.getD (argminFirst l) 0 < l.getD j 0 := by
  obtain ⟨m, _, hval, _, hstrict⟩ := argminFirst_auxSpec l hl
  intro j hj
  rw [hval]
  exact hstrict j hj

lemma getD_map_of_lt {α : Type} {β : Type} (f : α → β) (l : List α) (j : ℕ)
    (hj : j < l.length) (d : α) (dB : β) : (l.map f).getD j dB = f (l.getD j d) := by
  rw [List.getD_eq_getElem _ _ (by simpa using hj), List.getD_eq_getElem _ _ hj,
    List.getElem_map]

lemma assign_lt (cs : List (List ℝ)) (e : List ℝ) (h : cs ≠ []) :
    assign cs e < cs.length := by
  have hne : cs.map (fun c => euclideanDistance e c) ≠ [] := by
    simpa using h
  have := argminFirst_lt _ hne
  simpa [assign] using this

lemma assign_nearest (cs : List (List ℝ)) (e : List ℝ) (h : cs ≠ []) :
    NearestSlot cs e (assign cs e) := by
  have hne : cs.map (fun c => euclideanDistance e c) ≠ [] := by simpa using h
  have hlt := argminFirst_lt _ hne
  have hlen : (cs.map (fun c => euclideanDistance e c)).length = cs.length :=
    List.length_map _ _
  refine ⟨by rw [← hlen]; exact hlt, ?_, ?_⟩
  · intro j hj
    have := argminFirst_min _ hne j (by simpa [hlen] using hj)
    rwa [getD_map_of_lt _ _ _ (by simpa [hlen] using hlt) [] 0,
      getD_map_of_lt _ _ _ (by simpa [hlen] using hj) [] 0] at this
  · intro j hj
    have hjlen : j < cs.length := lt_trans hj (by simpa [hlen] using hlt)
    have := argminFirst_firstOfTies _ hne j (by simpa [assign] using hj)
    rwa [getD_map_of_lt _ _ _ (by simpa [hlen] using hlt) [] 0,
      getD_map_of_lt _ _ _ (by simpa [hlen] using hjlen) [] 0] at this

lemma dist2D_floor (p q : ℝ × ℝ) : (0.001 : ℝ) ≤ dist2D p q := by
  have h := Real.sqrt_nonneg ((q.1 - p.1) ^ 2 + (q.2 - p.2) ^ 2)
  unfold dist2D
  linarith

lemma umapIterate_fixed (step : ℕ → List (ℝ × ℝ) → List (ℝ × ℝ))
    (ps : List (ℝ × ℝ)) (h : ∀ it, step it ps = ps) :
    ∀ i f, umapIterate step i f ps = ps := by
  intro i f
  induction f generalizing i with
  | zero => rfl
  | succ f ih => rw [umapIterate, h i]; exact ih (i + 1)

lemma umapStep_length (knn : List (List (ℕ × ℝ))) (n : ℕ)
    (sample : ℕ → ℕ → ℕ → ℕ) (iterations iter : ℕ) (ps : List (ℝ × ℝ)) :
    (umapStep knn n sample iterations iter ps).length = n := by
  simp [umapStep]

lemma umapIterate_length (step : ℕ → List (ℝ × ℝ) → List (ℝ × ℝ)) (n : ℕ)
    (hstep : ∀ it ps, (step it ps).length = n) :
    ∀ i f ps, ps.length = n → (umapIterate step i f ps).length = n := by
  intro i f
  induction f generalizing i with
  | zero => intro ps h; exact h
  | succ f ih => intro ps _; rw [umapIterate]; exact ih (i + 1) _ (hstep i ps)

lemma knnRow_singleton (e : List ℝ) (nb : ℕ) : knnRow [e] nb 0 = [] := by
  simp [knnRow]

lemma umapStep_singleton (knn : List (List (ℕ × ℝ))) (hknn : knn.getD 0 [] = [])
    (sample : ℕ → ℕ → ℕ → ℕ) (iterations iter : ℕ) (p : ℝ × ℝ) :
    umapStep knn 1 sample iterations iter [p] = [p] := by
  have h0 : knn[0]?.getD [] = [] := by
    rw [← List.getD_eq_getElem?_getD]; exact hknn
  simp [umapStep, attractionAt, repulsionAt, h0, List.range_succ, Nat.mod_one]

lemma kmeansLoop_converged (emb : List (List ℝ)) (k : ℕ) :
    ∀ (fuel : ℕ) (cs : List (List ℝ)) (ls ls' : List ℕ) (cs' : List (List ℝ)) (m : ℕ),
      kmeansLoop emb k cs ls fuel = (ls', cs', true, m) →
      emb.map (assign cs') = ls' := by
  intro fuel
  induction fuel with
  | zero =>
    intro cs ls ls' cs' m h
    rw [kmeansLoop] at h
    simp [Prod.ext_iff] at h
  | succ fuel ih =>
    intro cs ls ls' cs' m h
    simp only [kmeansLoop] at h
    by_cases hc : emb.map (assign cs) = ls
    · rw [if_pos hc] at h
      obtain ⟨h1, h2, -, -⟩ : ls = ls' ∧ cs = cs' ∧ True ∧ 1 = m := by
        simpa [Prod.ext_iff] using h
      subst h1; subst h2
      exact hc
    · rw [if_neg hc] at h
      rcases hrec : kmeansLoop emb k (updateCentroids emb k (emb.map (assign cs)) cs)
        (emb.map (assign cs)) fuel with ⟨a, b, flag, cnt⟩
      rw [hrec] at h
      obtain ⟨h1, h2, h3, -⟩ : a = ls' ∧ b = cs' ∧ flag = true ∧ cnt + 1 = m := by
        simpa [Prod.ext_iff] using h
      subst h1; subst h2; subst h3
      exact ih _ _ _ _ _ hrec

lemma kmeansLoop_step_converged (emb : List (List ℝ)) (k : ℕ)
    (cs : List (List ℝ)) (ls : List ℕ) (fuel : ℕ)
    (h : emb.map (assign cs) = ls) :
    kmeansLoop emb k cs ls (fuel + 1) = (ls, cs, true, 1) := by
  simp only [kmeansLoop]
  rw [if_pos h]

lemma kmeansLoop_centroids_length (emb : List (List ℝ)) (k : ℕ) :
    ∀ (fuel : ℕ) (cs : List (List ℝ)) (ls : List ℕ), cs.length = k →
      (kmeansLoop emb k cs ls fuel).2.1.length = k := by
  intro fuel
  induction fuel with
  | zero => intro cs ls h; rw [kmeansLoop]; exact h
  | succ fuel ih =>
    intro cs ls h
    simp only [kmeansLoop]
    by_cases hc : emb.map (assign cs) = ls
    · rw [if_pos hc]; exact h
    · rw [if_neg hc]
      exact ih _ _ (by simp [updateCentroids])

lemma kmeansLoop_labels (emb : List (List ℝ)) (k : ℕ) (hk : 1 ≤ k) :
    ∀ (fuel : ℕ) (cs : List (List ℝ)) (ls : List ℕ),
      cs.length = k → ls.length = emb.length → (∀ l ∈ ls, l < k) →
      (kmeansLoop emb k cs ls fuel).1.length = emb.length ∧
      ∀ l ∈ (kmeansLoop emb k cs ls fuel).1, l < k := by
  intro fuel
  induction fuel with
  | zero => intro cs ls _ hlen hmem; rw [kmeansLoop]; exact ⟨hlen, hmem⟩
  | succ fuel ih =>
    intro cs ls hcs hlen hmem
    simp only [kmeansLoop]
    by_cases hc : emb.map (assign cs) = ls
    · rw [if_pos hc]; exact ⟨hlen, hmem⟩
    · rw [if_neg hc]
      have hcs' : cs ≠ [] := by
        intro hnil
        rw [hnil] at hcs
        simp at hcs
        omega
      have hmem' : ∀ l ∈ emb.map (assign cs), l < k := by
        intro l hl
        obtain ⟨e, -, rfl⟩ := List.mem_map.mp hl
        have := assign_lt cs e hcs'
        omega
      exact ih _ _ (by simp [updateCentroids]) (by simp) hmem'

lemma kmeansLoop_passes (emb : List (List ℝ)) (k : ℕ) :
    ∀ (fuel : ℕ) (cs : List (List ℝ)) (ls : List ℕ),
      (kmeansLoop emb k cs ls fuel).2.2.2 ≤ fuel ∧
      ((kmeansLoop emb k cs ls fuel).2.2.1 = false →
        (kmeansLoop emb k cs ls fuel).2.2.2 = fuel) := by
  intro fuel
  induction fuel with
  | zero => intro cs ls; rw [kmeansLoop]; exact ⟨le_refl 0, fun _ => rfl⟩
  | succ fuel ih =>
    intro cs ls
    simp only [kmeansLoop]
    by_cases hc : emb.map (assign cs) = ls
    · rw [if_pos hc]
      refine ⟨?_, ?_⟩
      · show 1 ≤ fuel + 1
        omega
      · intro hfalse
        exact absurd hfalse (by simp)
    · rw [if_neg hc]
      obtain ⟨h1, h2⟩ := ih (updateCentroids emb k (emb.map (assign cs)) cs)
        (emb.map (assign cs))
      refine ⟨?_, ?_⟩
      · show (kmeansLoop emb k (updateCentroids emb k (emb.map (assign cs)) cs)
          (emb.map (assign cs)) fuel).2.2.2 + 1 ≤ fuel + 1
        omega
      · intro hf
        have hf' : (kmeansLoop emb k (updateCentroids emb k (emb.map (assign cs)) cs)
            (emb.map (assign cs)) fuel).2.2.1 = false := hf
        have h3 := h2 hf'
        show (kmeansLoop emb k (updateCentroids emb k (emb.map (assign cs)) cs)
          (emb.map (assign cs)) fuel).2.2.2 + 1 = fuel + 1
        omega

lemma minDistToCentroids_nonneg (e : List ℝ) (cs : List (List ℝ)) :
    0 ≤ minDistToCentroids e cs := by
  have hgen : ∀ (ds : List ℝ) (d : ℝ), 0 ≤ d → (∀ x ∈ ds, 0 ≤ x) →
      0 ≤ ds.foldl min d := by
    intro ds
    induction ds with
    | nil => intro d hd _; exact hd
    | cons x xs ihx =>
      intro d hd hx
      rw [List.foldl_cons]
      exact ihx _ (le_min hd (hx x (List.mem_cons_self _ _)))
        (fun y hy => hx y (List.mem_cons_of_mem _ hy))
  unfold minDistToCentroids
  rcases hm : cs.map (fun c => euclideanDistance e c) with - | ⟨d, ds⟩
  · exact le_refl 0
  · have hall : ∀ x ∈ cs.map (fun c => euclideanDistance e c), 0 ≤ x := by
      intro x hx
      obtain ⟨c, -, rfl⟩ := List.mem_map.mp hx
      exact Real.sqrt_nonneg _
    rw [hm] at hall
    exact hgen ds d (hall d (List.mem_cons_self _ _))
      (fun y hy => hall y (List.mem_cons_of_mem _ hy))

lemma seedDists_nonneg (emb : List (List ℝ)) (used : List ℕ)
    (cs : List (List ℝ)) : ∀ x ∈ seedDists emb used cs, 0 ≤ x := by
  intro x hx
  obtain ⟨i, -, rfl⟩ := List.mem_map.mp hx
  by_cases hi : i ∈ used
  · simp [hi]
  · simpa [hi] using minDistToCentroids_nonneg (emb.getD i []) cs

lemma seedSelect_isSome : ∀ (dists : List ℝ) (r : ℝ) (idx : ℕ), dists ≠ [] →
    (∀ d ∈ dists, 0 ≤ d) → (r ≤ 0 ∨ r < dists.sum) →
    (seedSelect dists r idx).isSome = true := by
  intro dists
  induction dists with
  | nil => intro r idx h; exact absurd rfl h
  | cons d ds ih =>
    intro r idx _ hpos hr
    rw [seedSelect]
    by_cases hd : r - d ≤ 0
    · rw [if_pos hd]; rfl
    · rw [if_neg hd]
      push_neg at hd
      have hd0 : 0 ≤ d := hpos d (List.mem_cons_self _ _)
      have hrd : r - d < ds.sum := by
        rcases hr with hr | hr
        · exfalso; linarith
        · rw [List.sum_cons] at hr; linarith
      have hds : ds ≠ [] := by
        intro hnil
        rw [hnil] at hrd
        simp at hrd
        linarith
      exact ih (r - d) (idx + 1) hds
        (fun x hx => hpos x (List.mem_cons_of_mem _ hx)) (Or.inr hrd)

lemma seedLoop_some (randW : ℕ → ℝ) (hw : ∀ t, 0 ≤ randW t ∧ randW t < 1)
    (emb : List (List ℝ)) (hemb : emb ≠ []) :
    ∀ (fuel t : ℕ) (cs : List (List ℝ)) (used : List ℕ),
      ∃ cs', seedLoop randW emb t cs used fuel = some cs' ∧
        cs'.length = cs.length + fuel := by
  intro fuel
  induction fuel with
  | zero => intro t cs used; exact ⟨cs, rfl, by omega⟩
  | succ fuel ih =>
    intro t cs used
    have hlen : (seedDists emb used cs).length = emb.length := by
      simp [seedDists]
    have hne : seedDists emb used cs ≠ [] := by
      intro hnil
      rw [hnil] at hlen
      exact hemb (List.length_eq_zero.mp hlen.symm)
    have hsum : 0 ≤ (seedDists emb used cs).sum :=
      List.sum_nonneg (seedDists_nonneg emb used cs)
    have hr : randW t * (seedDists emb used cs).sum ≤ 0 ∨
        randW t * (seedDists emb used cs).sum < (seedDists emb used cs).sum := by
      rcases eq_or_lt_of_le hsum with hz | hpos
      · left; rw [← hz, mul_zero]
      · right
        calc randW t * (seedDists emb used cs).sum
            < 1 * (seedDists emb used cs).sum :=
              mul_lt_mul_of_pos_right (hw t).2 hpos
          _ = (seedDists emb used cs).sum := one_mul _
    have hsel := seedSelect_isSome (seedDists emb used cs)
      (randW t * (seedDists emb used cs).sum) 0 hne
      (seedDists_nonneg emb used cs) hr
    obtain ⟨i, hi⟩ := Option.isSome_iff_exists.mp hsel
    obtain ⟨cs', hcs', hlen'⟩ := ih (t + 1) (cs ++ [emb.getD i []]) (used ++ [i])
    refine ⟨cs', ?_, ?_⟩
    · simp only [seedLoop]
      rw [hi]
      exact hcs'
    · rw [hlen', List.length_append, List.length_singleton]
      omega

lemma kmeansSeed_some (randI : ℕ) (randW : ℕ → ℝ)
    (hw : ∀ t, 0 ≤ randW t ∧ randW t < 1) (emb : List (List ℝ))
    (hemb : emb ≠ []) (k : ℕ) (hk : 1 ≤ k) :
    ∃ cs, kmeansSeed randI randW emb k = some cs ∧ cs.length = k := by
  match emb, hemb with
  | e :: rest, _ =>
    obtain ⟨cs, hcs, hlen⟩ := seedLoop_some randW hw (e :: rest)
      (List.cons_ne_nil _ _) (k - 1) 0
      [(e :: rest).getD (randI % (e :: rest).length) []] [randI % (e :: rest).length]
    refine ⟨cs, ?_, ?_⟩
    · simpa [kmeansSeed] using hcs
    · rw [hlen]; simp; omega

/-- Claim C4 (amended): for `N = 0` the source reads `embeddings[0].length`
off an undefined element and throws (modelled: `none`), rather than
returning an empty list; for `N = 1` the neighbor list is empty, no force is
ever computed (in particular no division is performed), and the single
initial position is returned unchanged. -/
theorem umap_degenerate :
    (∀ (rp : ℕ → ℝ × ℝ) (ri : ℕ → ℕ → ℕ → ℕ) (nb : ℕ), umap rp ri [] nb = none) ∧
    (∀ (rp : ℕ → ℝ × ℝ) (ri : ℕ → ℕ → ℕ → ℕ) (e : List ℝ) (nb : ℕ),
      umap rp ri [e] nb = some [rp 0]) := by
  constructor
  · intro rp ri nb; rfl
  · intro rp ri e nb
    show some _ = some [rp 0]
    have hr : List.map rp (List.range [e].length) = [rp 0] := by
      simp [List.range_succ]
    rw [hr]
    congr 1
    refine umapIterate_fixed _ _ (fun it => ?_) 0 200
    exact umapStep_singleton _ (by simp [knnRows, knnRow_singleton]) _ _ _ _

/-- Counterexample to Claim C4 as stated: on the empty embedding set the
Spatializer does not return an empty position list — it fails
(`embeddings[0].length` throws, modelled as `none`). -/
theorem umap_empty_counterexample :
    umap (fun _ => ((0 : ℝ), (0 : ℝ))) (fun _ _ _ => 0) [] 15 = none ∧
    umap (fun _ => ((0 : ℝ), (0 : ℝ))) (fun _ _ _ => 0) [] 15 ≠ some [] :=
  ⟨rfl, by simp [umap]⟩

/-- Claim C9: for every nonempty input of finite embeddings the Spatializer
returns (after its fixed 200 passes) a well-defined position list of length
`N`; every divisor occurring in the attraction and repulsion computations is
the floored distance `dist2D`, which is bounded below by the positive floor
`0.001`, so (in exact arithmetic) no division by zero — the source of
NaN/infinite coordinates — can occur, and `Real.log` is only applied to
arguments `≥ 1.001`. -/
theorem umap_no_nan (rp : ℕ → ℝ × ℝ) (ri : ℕ → ℕ → ℕ → ℕ)
    (emb : List (List ℝ)) (nb : ℕ) (h : emb ≠ []) :
    (∃ out, umap rp ri emb nb = some out ∧ out.length = emb.length) ∧
    ∀ p q : ℝ × ℝ, (0.001 : ℝ) ≤ dist2D p q := by
  constructor
  · match emb, h with
    | e :: rest, _ =>
      refine ⟨_, rfl, ?_⟩
      exact umapIterate_length _ (e :: rest).length
        (fun it ps => umapStep_length _ _ _ _ _ _) 0 200 _ (by simp)
  · exact dist2D_floor

/-- Witness for C9 at a concrete input. -/
theorem umap_no_nan_witness :
    ([[(0 : ℝ)]] ≠ []) ∧
    ((∃ out, umap (fun _ => ((0 : ℝ), (0 : ℝ))) (fun _ _ _ => 0) [[(0 : ℝ)]] 15 =
        some out ∧ out.length = [[(0 : ℝ)]].length) ∧
      ∀ p q : ℝ × ℝ, (0.001 : ℝ) ≤ dist2D p q) :=
  ⟨List.cons_ne_nil _ _,
    umap_no_nan (fun _ => ((0 : ℝ), (0 : ℝ))) (fun _ _ _ => 0) [[(0 : ℝ)]] 15
      (List.cons_ne_nil _ _)⟩

/-- Witness for C1 at a concrete input. -/
theorem knnRow_spec_witness :
    (0 < [[(0 : ℝ)], [1]].length ∧ 1 ≤ 1) ∧
    ((knnRow [[(0 : ℝ)], [1]] 1 0).length = min 1 ([[(0 : ℝ)], [1]].length - 1) ∧
     List.Pairwise (fun a b : ℕ × ℝ => a.2 ≤ b.2) (knnRow [[(0 : ℝ)], [1]] 1 0) ∧
     ∀ p ∈ knnRow [[(0 : ℝ)], [1]] 1 0, p.1 ≠ 0) :=
  ⟨⟨by simp, le_refl 1⟩, knnRow_spec [[(0 : ℝ)], [1]] 1 0 (by simp) (le_refl 1)⟩

/-- Claim C2: if the kmeans iteration loop exits through the convergence
branch, the output labels are a fixed point of the Assign step against the
final centroids — re-running Assign (nearest centroid under Euclidean
distance, ties to the lowest slot index, per `NearestSlot`) reproduces the
output assignment exactly. -/
theorem kmeans_converged_fixed_point (emb : List (List ℝ)) (k fuel : ℕ)
    (cs₀ : List (List ℝ)) (ls₀ ls' : List ℕ) (cs' : List (List ℝ)) (m : ℕ)
    (hk : 1 ≤ k) (hcs : cs₀.length = k)
    (heq : kmeansLoop emb k cs₀ ls₀ fuel = (ls', cs', true, m)) :
    emb.map (assign cs') = ls' ∧
    ∀ i < emb.length, NearestSlot cs' (emb.getD i []) (ls'.getD i 0) := by
  have hfix := kmeansLoop_converged emb k fuel cs₀ ls₀ ls' cs' m heq
  have hcs' : cs'.length = k := by
    have := kmeansLoop_centroids_length emb k fuel cs₀ ls₀ hcs
    rw [heq] at this
    exact this
  have hne : cs' ≠ [] := by
    intro hnil
    rw [hnil] at hcs'
    simp at hcs'
    omega
  refine ⟨hfix, fun i hi => ?_⟩
  have hval : ls'.getD i 0 = assign cs' (emb.getD i []) := by
    rw [← hfix, getD_map_of_lt (assign cs') emb i hi [] 0]
  rw [hval]
  exact assign_nearest cs' (emb.getD i []) hne

/-- Witness for C2 at a concrete input. -/
theorem kmeans_converged_fixed_point_witness :
    (1 ≤ 1 ∧ [[(0 : ℝ)]].length = 1 ∧
      kmeansLoop [[(0 : ℝ)], [1]] 1 [[(0 : ℝ)]] [0, 0] 50 = ([0, 0], [[(0 : ℝ)]], true, 1)) ∧
    ([[(0 : ℝ)], [1]].map (assign [[(0 : ℝ)]]) = [0, 0] ∧
      ∀ i < [[(0 : ℝ)], [1]].length,
        NearestSlot [[(0 : ℝ)]] ([[(0 : ℝ)], [1]].getD i []) ([0, 0].getD i 0)) :=
  ⟨⟨le_refl 1, rfl, rfl⟩,
    kmeans_converged_fixed_point [[(0 : ℝ)], [1]] 1 50 [[(0 : ℝ)]] [0, 0] [0, 0]
      [[(0 : ℝ)]] 1 (le_refl 1) rfl rfl⟩

/-- Claim C7: for every run with `1 ≤ K ≤ N` (and `[0,1)`-bounded random
draws) the Cluster Engine returns an assignment with exactly one slot per
sample index (a list of length `N`), every slot lying in `[0, K)`. -/
theorem kmeans_assignment_total (randI : ℕ) (randW : ℕ → ℝ)
    (emb : List (List ℝ)) (k maxIter : ℕ)
    (hw : ∀ t, 0 ≤ randW t ∧ randW t < 1) (hk : 1 ≤ k) (hkn : k ≤ emb.length) :
    ∃ ls, kmeans randI randW emb k maxIter = some ls ∧
      ls.length = emb.length ∧ ∀ l ∈ ls, l < k := by
  have hemb : emb ≠ [] := by
    intro hnil
    rw [hnil] at hkn
    simp at hkn
    omega
  obtain ⟨cs, hcs, hlen⟩ := kmeansSeed_some randI randW hw emb hemb k hk
  obtain ⟨h1, h2⟩ := kmeansLoop_labels emb k hk maxIter cs
    (List.replicate emb.length 0) hlen (List.length_replicate _ _)
    (fun l hl => by rw [List.eq_of_mem_replicate hl]; omega)
  refine ⟨(kmeansLoop emb k cs (List.replicate emb.length 0) maxIter).1, ?_, h1, h2⟩
  simp only [kmeans]
  rw [hcs]

/-- Witness for C7 at a concrete input. -/
theorem kmeans_assignment_total_witness :
    ((∀ t : ℕ, 0 ≤ (fun _ : ℕ => (0 : ℝ)) t ∧ (fun _ : ℕ => (0 : ℝ)) t < 1) ∧
      1 ≤ 1 ∧ 1 ≤ [[(0 : ℝ)], [1]].length) ∧
    ∃ ls, kmeans 0 (fun _ => (0 : ℝ)) [[(0 : ℝ)], [1]] 1 50 = some ls ∧
      ls.length = [[(0 : ℝ)], [1]].length ∧ ∀ l ∈ ls, l < 1 :=
  ⟨⟨fun _ => ⟨le_refl 0, zero_lt_one⟩, le_refl 1, by simp⟩,
    kmeans_assignment_total 0 (fun _ => (0 : ℝ)) [[(0 : ℝ)], [1]] 1 50
      (fun _ => ⟨le_refl 0, zero_lt_one⟩) (le_refl 1) (by simp)⟩

/-- Claim C8: the Cluster Engine terminates.  The K-means++ seeding loop
halts having selected exactly `K` centroids, and the assign/update loop
executes at most `maxIterations` Assign passes; when it does not exit through
the convergence branch (flag `false`) it uses exactly the full iteration cap —
i.e. an earlier exit happens only through convergence, even for inputs whose
assignments would otherwise oscillate forever. -/
theorem kmeans_terminates (randI : ℕ) (randW : ℕ → ℝ)
    (emb : List (List ℝ)) (k maxIter : ℕ)
    (hw : ∀ t, 0 ≤ randW t ∧ randW t < 1) (hk : 1 ≤ k) (hkn : k ≤ emb.length) :
    (∃ cs, kmeansSeed randI randW emb k = some cs ∧ cs.length = k) ∧
    ∀ (cs : List (List ℝ)) (ls : List ℕ),
      (kmeansLoop emb k cs ls maxIter).2.2.2 ≤ maxIter ∧
      ((kmeansLoop emb k cs ls maxIter).2.2.1 = false →
        (kmeansLoop emb k cs ls maxIter).2.2.2 = maxIter) := by
  have hemb : emb ≠ [] := by
    intro hnil
    rw [hnil] at hkn
    simp at hkn
    omega
  exact ⟨kmeansSeed_some randI randW hw emb hemb k hk,
    fun cs ls => kmeansLoop_passes emb k maxIter cs ls⟩

/-- Witness for C8 at a concrete input. -/
theorem kmeans_terminates_witness :
    ((∀ t : ℕ, 0 ≤ (fun _ : ℕ => (0 : ℝ)) t ∧ (fun _ : ℕ => (0 : ℝ)) t < 1) ∧
      1 ≤ 1 ∧ 1 ≤ [[(0 : ℝ)], [1]].length) ∧
    ((∃ cs, kmeansSeed 0 (fun _ => (0 : ℝ)) [[(0 : ℝ)], [1]] 1 = some cs ∧
        cs.length = 1) ∧
      ∀ (cs : List (List ℝ)) (ls : List ℕ),
        (kmeansLoop [[(0 : ℝ)], [1]] 1 cs ls 50).2.2.2 ≤ 50 ∧
        ((kmeansLoop [[(0 : ℝ)], [1]] 1 cs ls 50).2.2.1 = false →
          (kmeansLoop [[(0 : ℝ)], [1]] 1 cs ls 50).2.2.2 = 50)) :=
  ⟨⟨fun _ => ⟨le_refl 0, zero_lt_one⟩, le_refl 1, by simp⟩,
    kmeans_terminates 0 (fun _ => (0 : ℝ)) [[(0 : ℝ)], [1]] 1 50
      (fun _ => ⟨le_refl 0, zero_lt_one⟩) (le_refl 1) (by simp)⟩

/-- Claim C5: in every Update step, a cluster slot with zero assigned samples
keeps its centroid exactly unchanged (the whole coordinate list is the
previous one), and a run — empty slots included — still completes and returns
an assignment within the iteration cap. -/
theorem kmeans_empty_slot_frame (randI : ℕ) (randW : ℕ → ℝ)
    (emb : List (List ℝ)) (k maxIter : ℕ)
    (hw : ∀ t, 0 ≤ randW t ∧ randW t < 1) (hk : 1 ≤ k) (hkn : k ≤ emb.length) :
    (∀ (ls : List ℕ) (cs : List (List ℝ)) (c : ℕ), c < k →
      membersOf emb ls c = [] →
      (updateCentroids emb k ls cs).getD c [] = cs.getD c []) ∧
    ∃ out, kmeans randI randW emb k maxIter = some out := by
  constructor
  · intro ls cs c hc hmem
    have hlen : c < (updateCentroids emb k ls cs).length := by
      simpa [updateCentroids] using hc
    rw [List.getD_eq_getElem _ _ hlen]
    simp only [updateCentroids, List.getElem_map, List.getElem_range]
    rw [if_pos hmem]
  · have hemb : emb ≠ [] := by
      intro hnil
      rw [hnil] at hkn
      simp at hkn
      omega
    obtain ⟨cs, hcs, -⟩ := kmeansSeed_some randI randW hw emb hemb k hk
    refine ⟨(kmeansLoop emb k cs (List.replicate emb.length 0) maxIter).1, ?_⟩
    simp only [kmeans]
    rw [hcs]

/-- Witness for C5 at a concrete input. -/
theorem kmeans_empty_slot_frame_witness :
    ((∀ t : ℕ, 0 ≤ (fun _ : ℕ => (0 : ℝ)) t ∧ (fun _ : ℕ => (0 : ℝ)) t < 1) ∧
      1 ≤ 2 ∧ 2 ≤ [[(0 : ℝ)], [1]].length) ∧
    ((∀ (ls : List ℕ) (cs : List (List ℝ)) (c : ℕ), c < 2 →
        membersOf [[(0 : ℝ)], [1]] ls c = [] →
        (updateCentroids [[(0 : ℝ)], [1]] 2 ls cs).getD c [] = cs.getD c []) ∧
      ∃ out, kmeans 0 (fun _ => (0 : ℝ)) [[(0 : ℝ)], [1]] 2 50 = some out) :=
  ⟨⟨fun _ => ⟨le_refl 0, zero_lt_one⟩, by omega, by simp⟩,
    kmeans_empty_slot_frame 0 (fun _ => (0 : ℝ)) [[(0 : ℝ)], [1]] 2 50
      (fun _ => ⟨le_refl 0, zero_lt_one⟩) (by omega) (by simp)⟩

lemma seedDists_overK_eval :
    seedDists [[(1 : ℝ)]] [0] [[(1 : ℝ)]] = [0] := by
  simp [seedDists, List.range_succ]

lemma seedSelect_overK_eval :
    seedSelect (seedDists [[(1 : ℝ)]] [0] [[(1 : ℝ)]])
      ((fun _ : ℕ => (0 : ℝ)) 0 * (seedDists [[(1 : ℝ)]] [0] [[(1 : ℝ)]]).sum) 0 =
      some 0 := by
  rw [seedDists_overK_eval]
  simp only [seedSelect]
  norm_num

lemma kmeansSeed_overK_eval :
    kmeansSeed 0 (fun _ => (0 : ℝ)) [[(1 : ℝ)]] 2 = some [[(1 : ℝ)], [1]] := by
  show seedLoop (fun _ => (0 : ℝ)) [[(1 : ℝ)]] 0 [[(1 : ℝ)]] [0] 1 = some [[(1 : ℝ)], [1]]
  simp only [seedLoop]
  rw [seedSelect_overK_eval]
  rfl

lemma assign_overK_eval : assign [[(1 : ℝ)], [1]] [1] = 0 := by
  simp only [assign, List.map_cons, List.map_nil, argminFirst, argminFirstAux]
  rw [if_neg (lt_irrefl _)]

/-- `kmeans` called with `K = 2 > N = 1` returns an ordinary assignment. -/
lemma kmeans_overK_eval :
    kmeans 0 (fun _ => (0 : ℝ)) [[(1 : ℝ)]] 2 50 = some [0] := by
  have hmap : [[(1 : ℝ)]].map (assign [[(1 : ℝ)], [1]]) = [0] := by
    simp only [List.map_cons, List.map_nil, assign_overK_eval]
  have hloop : kmeansLoop [[(1 : ℝ)]] 2 [[(1 : ℝ)], [1]] [0] 50 =
      ([0], [[(1 : ℝ)], [1]], true, 1) :=
    kmeansLoop_step_converged [[(1 : ℝ)]] 2 [[(1 : ℝ)], [1]] [0] 49 hmap
  simp only [kmeans]
  rw [kmeansSeed_overK_eval]
  show some (kmeansLoop [[(1 : ℝ)]] 2 [[(1 : ℝ)], [1]] [0] 50).1 = some [0]
  rw [hloop]

/-- Counterexample to Claim C3 as stated: two of the three listed contract
violations do not fail loudly.  `euclideanDistance` on vectors of different
lengths silently returns the distance over the first vector's index range —
indistinguishable from a well-formed call (`d([0],[0,3]) = d([0],[0])`) — and
`kmeans` with `K = 2 > N = 1` silently re-picks the same point during seeding
and returns an ordinary assignment instead of raising. -/
theorem contract_violations_counterexample :
    euclideanDistance [(0 : ℝ)] [0, 3] = euclideanDistance [(0 : ℝ)] [0] ∧
    kmeans 0 (fun _ => (0 : ℝ)) [[(1 : ℝ)]] 2 50 = some [0] :=
  ⟨rfl, kmeans_overK_eval⟩

/-- Claim C3 (amended): of the three listed contract violations only the
empty embedding set fails immediately (both engines throw on reading the
first element; modelled as `none`).  Mismatched vector lengths silently
return a truncated distance, and `K > N` silently duplicates already-chosen
seeding points and returns an ordinary assignment. -/
theorem contract_violations_behavior :
    euclideanDistance [(0 : ℝ)] [0, 3] = euclideanDistance [(0 : ℝ)] [0] ∧
    (∃ ls, kmeans 0 (fun _ => (0 : ℝ)) [[(1 : ℝ)]] 2 50 = some ls) ∧
    (∀ (randI : ℕ) (randW : ℕ → ℝ) (k maxIter : ℕ),
      kmeans randI randW [] k maxIter = none) ∧
    ∀ (rp : ℕ → ℝ × ℝ) (ri : ℕ → ℕ → ℕ → ℕ) (nb : ℕ), umap rp ri [] nb = none :=
  ⟨rfl, ⟨[0], kmeans_overK_eval⟩, fun _ _ _ _ => rfl, fun _ _ _ => rfl⟩

lemma bump_fst (l : List (String × ℕ)) (t : String) :
    (bump l t).map Prod.fst =
      if t ∈ l.map Prod.fst then l.map Prod.fst else l.map Prod.fst ++ [t] := by
  induction l with
  | nil => simp [bump]
  | cons p rest ih =>
    obtain ⟨s, c⟩ := p
    by_cases hst : s = t
    · subst hst
      simp [bump]
    · simp only [bump, if_neg hst, List.map_cons]
      rw [ih]
      by_cases hm : t ∈ rest.map Prod.fst
      · rw [if_pos hm, if_pos (by simp [hm])]
      · rw [if_neg hm, if_neg ?_, List.cons_append]
        simp only [List.mem_cons]
        push_neg
        exact ⟨fun h => hst h.symm, hm⟩

lemma bump_valIn (l : List (String × ℕ)) (t s : String) :
    valIn s (bump l t) = valIn s l + (if s = t then 1 else 0) := by
  induction l with
  | nil =>
    by_cases hs : s = t
    · subst hs; simp [bump, valIn]
    · simp [bump, valIn, hs, Ne.symm hs]
  | cons p rest ih =>
    obtain ⟨u, c⟩ := p
    by_cases hut : u = t
    · subst hut
      by_cases hus : u = s
      · subst hus; simp [bump, valIn]
      · have hsu : ¬s = u := fun h => hus h.symm
        simp [bump, valIn, hus, hsu]
    · by_cases hus : u = s
      · rcases hus with rfl
        simp [bump, valIn, hut]
      · have hsu : ¬s = u := fun h => hus h.symm
        simp [bump, valIn, hut, hus, hsu, ih]

lemma bump_keysNodup (l : List (String × ℕ)) (t : String)
    (h : (l.map Prod.fst).Nodup) : ((bump l t).map Prod.fst).Nodup := by
  rw [bump_fst]
  by_cases hm : t ∈ l.map Prod.fst
  · rwa [if_pos hm]
  · rw [if_neg hm]
    simp [List.nodup_append, h, hm]

lemma assoc_eta (l : List (String × ℕ)) (h : (l.map Prod.fst).Nodup) :
    (l.map Prod.fst).map (fun t => (t, valIn t l)) = l := by
  induction l with
  | nil => rfl
  | cons p rest ih =>
    obtain ⟨s, c⟩ := p
    simp only [List.map_cons, List.nodup_cons] at h ⊢
    obtain ⟨hs, hrest⟩ := h
    congr 1
    · simp [valIn]
    · rw [List.map_congr_left (g := fun t => (t, valIn t rest)) ?_]
      · exact ih hrest
      · intro t ht
        have hst : ¬s = t := fun hh => hs (hh ▸ ht)
        simp [valIn, hst]

lemma countWords_main (ts : List String) :
    ∀ acc : List (String × ℕ), (acc.map Prod.fst).Nodup →
      ts.foldl bump acc =
        (ts.foldl (fun acc t => if t ∈ acc then acc else acc ++ [t])
            (acc.map Prod.fst)).map
          (fun t => (t, valIn t acc + ts.count t)) := by
  induction ts with
  | nil =>
    intro acc hacc
    simpa using (assoc_eta acc hacc).symm
  | cons w ts ih =>
    intro acc hacc
    simp only [List.foldl_cons]
    rw [ih (bump acc w) (bump_keysNodup acc w hacc)]
    have hfun : (fun t => (t, valIn t (bump acc w) + ts.count t)) =
        (fun t => (t, valIn t acc + (w :: ts).count t)) := by
      funext t
      rw [bump_valIn, List.count_cons]
      by_cases htw : t = w
      · subst htw
        simp
        omega
      · have hbeq : (w == t) = false :=
          beq_eq_false_iff_ne.mpr (fun h => htw h.symm)
        simp [htw, hbeq]
    rw [hfun, bump_fst]

lemma countWords_eq_specCounts (texts : List String) :
    countWords texts = specCounts ((texts.map tokenize).flatten) := by
  have h := countWords_main ((texts.map tokenize).flatten) [] (by simp)
  simpa [countWords, specCounts, firstSeen, valIn] using h

/-- Claim C6 (amended): for every cluster group the Label Synthesizer
lower-cases, strips non-alphanumerics, splits, drops short and stopword
tokens, counts frequencies, and labels by the top tokens exactly as the claim
states — except that frequency ties are broken by the count table's
`Object.entries` enumeration order (tokens that are canonical integers first,
in ascending numeric order, then the rest in first-encountered order), not by
first-encountered order alone. -/
theorem labelClusters_label_rule (slot : ℕ) (texts : List String) :
    labelFor slot texts = labelForAmended slot texts := by
  simp only [labelFor, labelForAmended, countWords_eq_specCounts]

/-- Counterexample to Claim C6 as stated: in the group
`["zebra 123 zebra 123"]` the tokens `zebra` and `123` tie at frequency 2
with `zebra` encountered first, so the claimed first-encountered tie-break
yields `"Zebra & 123"`; the code enumerates the numeric key `123` first and
yields `"123 & Zebra"`. -/
theorem labelClusters_tie_counterexample :
    labelFor 0 ["zebra 123 zebra 123"] = "123 & Zebra" ∧
    labelForClaim 0 ["zebra 123 zebra 123"] = "Zebra & 123" ∧
    ("123 & Zebra" : String) ≠ "Zebra & 123" :=
  ⟨by decide, by decide, by decide⟩

lemma mem_insertAscNat (x y : ℕ) (l : List ℕ) :
    y ∈ insertAscNat x l ↔ y = x ∨ y ∈ l := by
  induction l with
  | nil => simp [insertAscNat]
  | cons a l ih =>
    rw [insertAscNat]
    by_cases h : x ≤ a
    · rw [if_pos h]
      simp
    · rw [if_neg h]
      simp only [List.mem_cons, ih]
      tauto

lemma mem_sortAscNat (x : ℕ) (l : List ℕ) : x ∈ sortAscNat l ↔ x ∈ l := by
  induction l with
  | nil => simp [sortAscNat]
  | cons a l ih =>
    show x ∈ insertAscNat a (sortAscNat l) ↔ _
    rw [mem_insertAscNat, ih]
    simp

lemma mem_foldl_firstSeen (l : List ℕ) :
    ∀ (acc : List ℕ) (x : ℕ),
      x ∈ l.foldl (fun acc t => if t ∈ acc then acc else acc ++ [t]) acc ↔
        x ∈ acc ∨ x ∈ l := by
  induction l with
  | nil => simp
  | cons a l ih =>
    intro acc x
    simp only [List.foldl_cons]
    by_cases h : a ∈ acc
    · rw [if_pos h, ih]
      simp only [List.mem_cons]
      constructor
      · rintro (hx | hx)
        · exact Or.inl hx
        · exact Or.inr (Or.inr hx)
      · rintro (hx | rfl | hx)
        · exact Or.inl hx
        · exact Or.inl h
        · exact Or.inr hx
    · rw [if_neg h, ih]
      simp only [List.mem_append, List.mem_singleton, List.mem_cons]
      tauto

lemma mem_firstSeenNat (x : ℕ) (l : List ℕ) : x ∈ firstSeenNat l ↔ x ∈ l := by
  have h := mem_foldl_firstSeen l [] x
  simpa [firstSeenNat] using h

lemma mem_slotsOf (msgs : List String) (ls : List ℕ) (c : ℕ)
    (hlen : msgs.length = ls.length) : c ∈ slotsOf msgs ls ↔ c ∈ ls := by
  unfold slotsOf
  rw [mem_sortAscNat, mem_firstSeenNat]
  have hz : ((msgs.zip ls).map (fun p => p.2)) = List.map Prod.snd (msgs.zip ls) := rfl
  rw [hz, List.map_snd_zip msgs ls (le_of_eq hlen.symm)]

lemma lookupSlot_label_map (slots : List ℕ) (f : ℕ → String) (c : ℕ) :
    (∃ s, lookupSlot c (slots.map (fun x => (x, f x))) = some s) ↔ c ∈ slots := by
  induction slots with
  | nil => simp [lookupSlot]
  | cons a rest ih =>
    simp only [List.map_cons, lookupSlot, List.mem_cons]
    by_cases h : a = c
    · rw [if_pos h]
      simp [h.symm]
    · rw [if_neg h]
      rw [ih]
      constructor
      · exact Or.inr
      · rintro (rfl | hx)
        · exact absurd rfl h
        · exact hx

/-- Claim C10: the Label Synthesizer's map has an entry for exactly the
occupied slots — a slot with at least one member sample gets a label, and a
slot with zero members (including every empty slot in `[0, K)`) is entirely
absent from the returned map, receiving no positional fallback. -/
theorem labelClusters_occupied_slots (msgs : List String) (ls : List ℕ) (c : ℕ)
    (hlen : msgs.length = ls.length) :
    (∃ s, lookupSlot c (labelClusters msgs ls) = some s) ↔ c ∈ ls := by
  unfold labelClusters
  rw [lookupSlot_label_map (slotsOf msgs ls) (fun x => labelFor x (textsOf msgs ls x)) c]
  exact mem_slotsOf msgs ls c hlen

/-- Witness for C10 at a concrete input. -/
theorem labelClusters_occupied_slots_witness :
    (["hey there friend"].length = [0].length) ∧
    ((∃ s, lookupSlot 0 (labelClusters ["hey there friend"] [0]) = some s) ↔
      0 ∈ [0]) :=
  ⟨rfl, labelClusters_occupied_slots ["hey there friend"] [0] 0 rfl⟩

end ThoughtClusters
